import Mathlib

/-!
# Byte_Algorithm

A shallow embedding of `Byte_Algorithm.c` / `Byte_Algorithm.h`.

* A `uint8_t` is a natural number below `256`; every store into a `uint8_t`
  variable and every `uint8_t` return of a computed expression is an explicit
  `% 256`.
* Operands of the C operators are promoted to `int`.  All intermediate values
  of the byte functions are non-negative except the results of `~`; an `int`
  is kept as its 32-bit two's-complement bit pattern, so `~x` is
  `4294967295 - x`.
* The `int32_t` argument of `isPowerOf2` and `isOdd` is an `Int`; `&` acts on
  the 32-bit two's-complement bit patterns of its operands.
* The file-level variable `error_flag` is threaded explicitly: a function that
  touches it takes the current value as its last argument and returns the pair
  `(returned value, new error_flag)`.
-/

namespace ByteAlgorithm

/-! ## Byte_Algorithm.h: `Byte_Algorithm_Error_Type` -/

/-- Enumerator `Byte_Algorithm_Error_N_over_7=1`. -/
def Byte_Algorithm_Error_N_over_7 : Nat := 1

/-- Enumerator `Byte_Algorithm_Error_Bits_Setting_Overflow=2`. -/
def Byte_Algorithm_Error_Bits_Setting_Overflow : Nat := 2

/-- Enumerator `Byte_Algorithm_Error_Length_Illegal=4`. -/
def Byte_Algorithm_Error_Length_Illegal : Nat := 4

/-- Enumerator `Byte_Algorithm_Error_Start_Bit_Illegal=8`. -/
def Byte_Algorithm_Error_Start_Bit_Illegal : Nat := 8

/-- Enumerator `Byte_Algorithm_Error_Total_Length_over_8=16`. -/
def Byte_Algorithm_Error_Total_Length_over_8 : Nat := 16

/-! ## C operators -/

/-- The C operator `~` on an `int` operand, on 32-bit two's-complement bit patterns. -/
def bitNot (x : Nat) : Nat := 4294967295 - x

/-- The 32-bit two's-complement bit pattern of an `int32_t` value. -/
def bits32 (x : Int) : Nat := (x % 4294967296).toNat

/-! ## Byte_Algorithm.c -/

/-- Source: `uint8_t getLSB(uint8_t byte){ return byte&1; }`. -/
def getLSB (byte : Nat) : Nat := (byte &&& 1) % 256

/-- Source: `uint8_t getMSB(uint8_t byte){ return (byte>>7)&1; }`. -/
def getMSB (byte : Nat) : Nat := ((byte >>> 7) &&& 1) % 256

/-- Source: `uint8_t setLSB(uint8_t byte){ return byte|1; }`. -/
def setLSB (byte : Nat) : Nat := (byte ||| 1) % 256

/-- Source: `uint8_t resetLSB(uint8_t byte){ return byte&(~1); }`. -/
def resetLSB (byte : Nat) : Nat := (byte &&& bitNot 1) % 256

/-- Source: `uint8_t setMSB(uint8_t byte){ return byte|((uint8_t)128); }`. -/
def setMSB (byte : Nat) : Nat := (byte ||| (128 % 256)) % 256

/-- Source: `uint8_t resetMSB(uint8_t byte){ return byte&(~((uint8_t)128)); }`. -/
def resetMSB (byte : Nat) : Nat := (byte &&& bitNot (128 % 256)) % 256

/-- Source: `uint8_t flipLSB(uint8_t byte){ return byte^1; }`. -/
def flipLSB (byte : Nat) : Nat := (byte ^^^ 1) % 256

/-- Source: `uint8_t flipMSB(uint8_t byte){ return byte^128; }`. -/
def flipMSB (byte : Nat) : Nat := (byte ^^^ 128) % 256

/-- Source: `getBitN`: `if(n>7){ error_flag|=N_over_7; return byte; } return ((byte>>n)&1);`. -/
def getBitN (byte n : Nat) (error_flag : Nat) : Nat × Nat :=
  if n > 7 then
    (byte, error_flag ||| Byte_Algorithm_Error_N_over_7)
  else
    (((byte >>> n) &&& 1) % 256, error_flag)

/-- Source: `setBitN`: `if(n>7){ error_flag|=N_over_7; return byte; } return (byte|(1<<n));`. -/
def setBitN (byte n : Nat) (error_flag : Nat) : Nat × Nat :=
  if n > 7 then
    (byte, error_flag ||| Byte_Algorithm_Error_N_over_7)
  else
    ((byte ||| (1 <<< n)) % 256, error_flag)

/-- Source: `resetBitN`: `if(n>7){ error_flag|=N_over_7; return byte; } return (byte&(~(1<<n)));`. -/
def resetBitN (byte n : Nat) (error_flag : Nat) : Nat × Nat :=
  if n > 7 then
    (byte, error_flag ||| Byte_Algorithm_Error_N_over_7)
  else
    ((byte &&& bitNot (1 <<< n)) % 256, error_flag)

/-- Source: `flipBitN`: `if(n>7){ error_flag|=N_over_7; return byte; } return (byte^(1<<n));`. -/
def flipBitN (byte n : Nat) (error_flag : Nat) : Nat × Nat :=
  if n > 7 then
    (byte, error_flag ||| Byte_Algorithm_Error_N_over_7)
  else
    ((byte ^^^ (1 <<< n)) % 256, error_flag)

/-- Source: `uint8_t Byte_Algorithm_check_Error(void){ return error_flag; }`. -/
def Byte_Algorithm_check_Error (error_flag : Nat) : Nat × Nat :=
  (error_flag % 256, error_flag)

/-- Source: `void Byte_Algorithm_clear_Error(void){ error_flag=0; }`; the result is the new
`error_flag`. -/
def Byte_Algorithm_clear_Error (_error_flag : Nat) : Nat := 0

/-- Source: `writeBits` (Byte_Algorithm.c, lines 232-267). -/
def writeBits (byte start_bit length value : Nat) (error_flag : Nat) : Nat × Nat :=
  if start_bit ≥ 8 then
    (byte, error_flag ||| Byte_Algorithm_Error_Start_Bit_Illegal)
  else if length > 8 ∨ length = 0 then
    (byte, error_flag ||| Byte_Algorithm_Error_Length_Illegal)
  else if start_bit + length > 8 then
    (byte, error_flag ||| Byte_Algorithm_Error_Total_Length_over_8)
  else
    let maxvalue := ((1 <<< length) - 1) % 256
    if value > maxvalue then
      (byte, error_flag ||| Byte_Algorithm_Error_Bits_Setting_Overflow)
    else
      let mask := (maxvalue <<< start_bit) % 256
      let clear_mask := bitNot mask % 256
      let cleared_byte := (byte &&& clear_mask) % 256
      let moved_value := (value <<< start_bit) % 256
      ((cleared_byte ||| moved_value) % 256, error_flag)

/-- Source: `getBits` (Byte_Algorithm.c, lines 299-322). -/
def getBits (byte start_bit length : Nat) (error_flag : Nat) : Nat × Nat :=
  if start_bit ≥ 8 then
    (byte, error_flag ||| Byte_Algorithm_Error_Start_Bit_Illegal)
  else if length > 8 ∨ length = 0 then
    (byte, error_flag ||| Byte_Algorithm_Error_Length_Illegal)
  else if start_bit + length > 8 then
    (byte, error_flag ||| Byte_Algorithm_Error_Total_Length_over_8)
  else
    let ret := (byte >>> start_bit) % 256
    let mask := (255 >>> (8 - length)) % 256
    let ret := (ret &&& mask) % 256
    (ret, error_flag)

/-- Source: `isPowerOf2`: `if((num>0) && ((num&(num-1))==0)) return 1; else return 0;`.
The right operand of `&&` is evaluated only when `num>0`. -/
def isPowerOf2 (num : Int) : Nat :=
  if num > 0 then
    if bits32 num &&& bits32 (num - 1) = 0 then 1 else 0
  else 0

/-- Source: `isOdd`: `if(num&1) return 1; else return 0;`. -/
def isOdd (num : Int) : Nat :=
  if bits32 num &&& bits32 1 ≠ 0 then 1 else 0

/-! ## Field descriptors and call sequences -/

/-- A field descriptor is valid: `start_bit ≤ 7`, `1 ≤ length ≤ 8`, `start_bit + length ≤ 8`. -/
def ValidField (start_bit length : Nat) : Prop :=
  start_bit ≤ 7 ∧ 1 ≤ length ∧ length ≤ 8 ∧ start_bit + length ≤ 8

instance (s l : Nat) : Decidable (ValidField s l) := by
  unfold ValidField; infer_instance

/-- One call of a function declared in `Byte_Algorithm.h`, with its arguments. -/
inductive Call where
  | getLSB (byte : Nat)
  | getMSB (byte : Nat)
  | setLSB (byte : Nat)
  | resetLSB (byte : Nat)
  | setMSB (byte : Nat)
  | resetMSB (byte : Nat)
  | flipLSB (byte : Nat)
  | flipMSB (byte : Nat)
  | getBitN (byte n : Nat)
  | setBitN (byte n : Nat)
  | resetBitN (byte n : Nat)
  | flipBitN (byte n : Nat)
  | check_Error
  | clear_Error
  | writeBits (byte start_bit length value : Nat)
  | getBits (byte start_bit length : Nat)
  | isPowerOf2 (num : Int)
  | isOdd (num : Int)
  deriving DecidableEq

/-- The value of `error_flag` after a call, from its value before the call.  The functions
whose bodies do not mention `error_flag` leave it as it is. -/
def Call.exec : Call → Nat → Nat
  | .getLSB _, e => e
  | .getMSB _, e => e
  | .setLSB _, e => e
  | .resetLSB _, e => e
  | .setMSB _, e => e
  | .resetMSB _, e => e
  | .flipLSB _, e => e
  | .flipMSB _, e => e
  | .getBitN byte n, e => (ByteAlgorithm.getBitN byte n e).2
  | .setBitN byte n, e => (ByteAlgorithm.setBitN byte n e).2
  | .resetBitN byte n, e => (ByteAlgorithm.resetBitN byte n e).2
  | .flipBitN byte n, e => (ByteAlgorithm.flipBitN byte n e).2
  | .check_Error, e => (Byte_Algorithm_check_Error e).2
  | .clear_Error, e => Byte_Algorithm_clear_Error e
  | .writeBits byte start_bit length value, e =>
      (ByteAlgorithm.writeBits byte start_bit length value e).2
  | .getBits byte start_bit length, e => (ByteAlgorithm.getBits byte start_bit length e).2
  | .isPowerOf2 _, e => e
  | .isOdd _, e => e

/-- The value of `error_flag` after a sequence of calls, executed from left to right. -/
def run (cs : List Call) (e : Nat) : Nat :=
  cs.foldl (fun st c => c.exec st) e

/-- The error kind of a field descriptor in the words of the specification (section 4.2):
validate, in order, `start_bit < 8` (else StartBitInvalid), `1 ≤ length ≤ 8` (else
LengthInvalid), `start_bit + length ≤ 8` (else TotalLengthExceeded); `0` when all hold. -/
def specFieldFlag (start_bit length : Nat) : Nat :=
  if ¬ start_bit < 8 then 8
  else if ¬ (1 ≤ length ∧ length ≤ 8) then 4
  else if ¬ start_bit + length ≤ 8 then 16
  else 0

/-- The flag a call raises in the words of the specification (sections 4.1 to 4.3): the
indexed single-bit operations raise IndexOutOfRange (`1`) when the index is not in `[0,7]`;
extract raises the error kind of its descriptor; insert does the same and additionally
raises ValueOverflow (`2`) when the value exceeds `2^length - 1`; `0` when the call does not
fail. -/
def Call.specFlag : Call → Nat
  | .getBitN _ n => if n ≤ 7 then 0 else 1
  | .setBitN _ n => if n ≤ 7 then 0 else 1
  | .resetBitN _ n => if n ≤ 7 then 0 else 1
  | .flipBitN _ n => if n ≤ 7 then 0 else 1
  | .getBits _ start_bit length => specFieldFlag start_bit length
  | .writeBits _ start_bit length value =>
      if specFieldFlag start_bit length ≠ 0 then specFieldFlag start_bit length
      else if ¬ value ≤ 2 ^ length - 1 then 2
      else 0
  | _ => 0

/-- Bitwise OR of a list of flags. -/
def orAll (flags : List Nat) : Nat :=
  flags.foldl (fun acc f => acc ||| f) 0

/-! ## Auxiliary facts -/

theorem maxvalue_eq {l : Nat} (h1 : 1 ≤ l) (h8 : l ≤ 8) :
    ((1 <<< l) - 1) % 256 = 2 ^ l - 1 := by
  interval_cases l <;> rfl

theorem getBits_mask_eq {l : Nat} (h1 : 1 ≤ l) (h8 : l ≤ 8) :
    (255 >>> (8 - l)) % 256 = 2 ^ l - 1 := by
  interval_cases l <;> rfl

theorem two_pow_le_256 {l : Nat} (h8 : l ≤ 8) : 2 ^ l ≤ 256 := by
  have := Nat.pow_le_pow_right (show 0 < 2 by decide) h8
  simpa using this

theorem getBits_valid {s l : Nat} (h : ValidField s l) (b e : Nat) :
    getBits b s l e = ((b >>> s) % 256 % 2 ^ l, e) := by
  obtain ⟨hs, h1, h8, hsl⟩ := h
  have hm := getBits_mask_eq h1 h8
  have hp := two_pow_le_256 h8
  have hlt : (b >>> s) % 256 % 2 ^ l < 256 :=
    lt_of_lt_of_le (Nat.mod_lt _ (by positivity)) hp
  simp only [getBits, hm, Nat.and_pow_two_sub_one_eq_mod]
  rw [if_neg (by omega), if_neg (by omega), if_neg (by omega), Nat.mod_eq_of_lt hlt]

theorem testBit_mod256 (x i : Nat) :
    (x % 256).testBit i = (decide (i < 8) && x.testBit i) :=
  Nat.testBit_mod_two_pow x 8 i

theorem testBit_bitNot_mod256 {m : Nat} (hm : m < 256) (i : Nat) :
    (bitNot m % 256).testBit i = (decide (i < 8) && !m.testBit i) := by
  have h : bitNot m % 256 = 2 ^ 8 - (m + 1) := by
    unfold bitNot; omega
  rw [h]
  exact Nat.testBit_two_pow_sub_succ (by omega) i

theorem testBit_of_lt_two_pow {v l i : Nat} (hv : v < 2 ^ l) (hi : l ≤ i) :
    v.testBit i = false :=
  Nat.testBit_lt_two_pow (lt_of_lt_of_le hv (Nat.pow_le_pow_right (by decide) hi))

theorem writeBits_valid {s l v : Nat} (h : ValidField s l) (hv : v ≤ 2 ^ l - 1) (b e : Nat) :
    writeBits b s l v e =
      (((b &&& (bitNot (((2 ^ l - 1) <<< s) % 256) % 256)) % 256 ||| (v <<< s) % 256) % 256,
        e) := by
  obtain ⟨hs, h1, h8, hsl⟩ := h
  have hm := maxvalue_eq h1 h8
  simp only [writeBits, hm]
  rw [if_neg (by omega), if_neg (by omega), if_neg (by omega), if_neg (by omega)]

/-- Bit `i` of the byte returned by a successful `writeBits`. -/
theorem writeBits_testBit {s l v : Nat} (h : ValidField s l) (hv : v ≤ 2 ^ l - 1)
    (b e i : Nat) :
    (writeBits b s l v e).1.testBit i =
      if s ≤ i ∧ i < s + l then v.testBit (i - s) else (decide (i < 8) && b.testBit i) := by
  rw [writeBits_valid h hv]
  obtain ⟨hs, h1, h8, hsl⟩ := h
  have hpos : 0 < 2 ^ l := by positivity
  have hvlt : v < 2 ^ l := by omega
  have hmask : ((2 ^ l - 1) <<< s) % 256 < 256 := Nat.mod_lt _ (by decide)
  simp only [testBit_mod256, Nat.testBit_or, Nat.testBit_and, testBit_bitNot_mod256 hmask,
    Nat.testBit_shiftLeft, Nat.testBit_two_pow_sub_one]
  by_cases h8i : i < 8
  · by_cases hsi : s ≤ i
    · by_cases hil : i < s + l
      · have : i - s < l := by omega
        simp [h8i, hsi, hil, this]
      · have hf : v.testBit (i - s) = false := testBit_of_lt_two_pow hvlt (by omega)
        have : ¬ i - s < l := by omega
        simp [h8i, hsi, hil, this, hf]
    · have : ¬ (i ≥ s) := by omega
      simp [h8i, hsi, this]
  · have hsi : s ≤ i := by omega
    have hil : ¬ i < s + l := by omega
    simp [h8i, hsi, hil]

theorem testBit_bitNot {m : Nat} (hm : m < 4294967296) (i : Nat) :
    (bitNot m).testBit i = (decide (i < 32) && !m.testBit i) := by
  have h : bitNot m = 2 ^ 32 - (m + 1) := by
    unfold bitNot; omega
  rw [h]
  exact Nat.testBit_two_pow_sub_succ (by omega) i

theorem field_mask_lt {s l : Nat} (h : ValidField s l) : ((1 <<< l) - 1) <<< s < 256 := by
  obtain ⟨hs, h1, h8, hsl⟩ := h
  interval_cases l <;> interval_cases s <;> first | decide | omega

/-- Bit `j` of the value returned by a successful `getBits`. -/
theorem getBits_testBit {s l : Nat} (h : ValidField s l) (b e j : Nat) :
    (getBits b s l e).1.testBit j = (decide (j < l) && b.testBit (s + j)) := by
  rw [getBits_valid h]
  obtain ⟨hs, h1, h8, hsl⟩ := h
  simp only [Nat.testBit_mod_two_pow, testBit_mod256, Nat.testBit_shiftRight]
  by_cases hj : j < l
  · have : j < 8 := by omega
    simp [hj, this]
  · simp [hj]

/-! ### Validation -/

theorem specFieldFlag_eq_zero_iff (s l : Nat) : specFieldFlag s l = 0 ↔ ValidField s l := by
  unfold specFieldFlag ValidField
  split_ifs <;> constructor <;> intro h <;> first | omega | (exfalso; revert h; decide)

theorem specFlag_writeBits (b s l v : Nat) :
    (Call.writeBits b s l v).specFlag =
      if specFieldFlag s l ≠ 0 then specFieldFlag s l
      else if ¬ v ≤ 2 ^ l - 1 then 2 else 0 := rfl

theorem getBits_snd (b s l e : Nat) : (getBits b s l e).2 = e ||| specFieldFlag s l := by
  unfold getBits specFieldFlag
  split_ifs <;> first | rfl | exact (Nat.or_zero e).symm | (exfalso; omega)

theorem getBits_invalid_fst {s l : Nat} (h : ¬ ValidField s l) (b e : Nat) :
    (getBits b s l e).1 = b := by
  unfold ValidField at h
  unfold getBits
  split_ifs <;> first | rfl | (exfalso; omega)

theorem writeBits_snd (b s l v e : Nat) :
    (writeBits b s l v e).2 = e ||| (Call.writeBits b s l v).specFlag := by
  rw [specFlag_writeBits]
  unfold writeBits specFieldFlag
  by_cases hl : 1 ≤ l ∧ l ≤ 8
  · simp only [maxvalue_eq hl.1 hl.2]
    split_ifs <;> first | rfl | exact (Nat.or_zero e).symm | (exfalso; omega)
  · split_ifs <;> first | rfl | (exfalso; omega)

theorem writeBits_invalid_fst {s l v : Nat} (h : ¬ (ValidField s l ∧ v ≤ 2 ^ l - 1))
    (b e : Nat) : (writeBits b s l v e).1 = b := by
  unfold ValidField at h
  unfold writeBits
  by_cases hl : 1 ≤ l ∧ l ≤ 8
  · simp only [maxvalue_eq hl.1 hl.2]
    split_ifs <;> first | rfl | (exfalso; omega)
  · split_ifs <;> first | rfl | (exfalso; omega)

/-! ### Call sequences -/

theorem exec_eq_or_specFlag {c : Call} (hc : c ≠ Call.clear_Error) (e : Nat) :
    c.exec e = e ||| c.specFlag := by
  cases c with
  | clear_Error => exact absurd rfl hc
  | writeBits b s l v => exact writeBits_snd b s l v e
  | getBits b s l => exact getBits_snd b s l e
  | getBitN b n =>
      simp only [Call.exec, Call.specFlag, getBitN]
      split_ifs <;> first | rfl | exact (Nat.or_zero e).symm | (exfalso; omega)
  | setBitN b n =>
      simp only [Call.exec, Call.specFlag, setBitN]
      split_ifs <;> first | rfl | exact (Nat.or_zero e).symm | (exfalso; omega)
  | resetBitN b n =>
      simp only [Call.exec, Call.specFlag, resetBitN]
      split_ifs <;> first | rfl | exact (Nat.or_zero e).symm | (exfalso; omega)
  | flipBitN b n =>
      simp only [Call.exec, Call.specFlag, flipBitN]
      split_ifs <;> first | rfl | exact (Nat.or_zero e).symm | (exfalso; omega)
  | _ => exact (Nat.or_zero e).symm

theorem run_eq_foldl_or (cs : List Call) (hno : Call.clear_Error ∉ cs) (e : Nat) :
    run cs e = (cs.map Call.specFlag).foldl (fun acc f => acc ||| f) e := by
  induction cs generalizing e with
  | nil => rfl
  | cons c cs ih =>
      have hc : c ≠ Call.clear_Error := fun h => hno (by simp [h])
      have hcs : Call.clear_Error ∉ cs := fun h => hno (by simp [h])
      have hstep : run (c :: cs) e = run cs (c.exec e) := rfl
      rw [hstep, ih hcs, exec_eq_or_specFlag hc]
      rfl

theorem specFieldFlag_lt (s l : Nat) : specFieldFlag s l < 2 ^ 5 := by
  unfold specFieldFlag
  split_ifs <;> decide

theorem specFlag_lt (c : Call) : c.specFlag < 2 ^ 5 := by
  cases c with
  | writeBits b s l v =>
      rw [specFlag_writeBits]
      have := specFieldFlag_lt s l
      split_ifs <;> first | assumption | decide
  | getBits b s l => exact specFieldFlag_lt s l
  | getBitN b n => simp only [Call.specFlag]; split_ifs <;> decide
  | setBitN b n => simp only [Call.specFlag]; split_ifs <;> decide
  | resetBitN b n => simp only [Call.specFlag]; split_ifs <;> decide
  | flipBitN b n => simp only [Call.specFlag]; split_ifs <;> decide
  | _ => simp [Call.specFlag]

theorem foldl_or_lt (fs : List Nat) (hfs : ∀ f ∈ fs, f < 2 ^ 5) (acc : Nat)
    (hacc : acc < 2 ^ 5) : fs.foldl (fun a f => a ||| f) acc < 2 ^ 5 := by
  induction fs generalizing acc with
  | nil => exact hacc
  | cons f fs ih =>
      have hf : f < 2 ^ 5 := hfs f (by simp)
      exact ih (fun g hg => hfs g (by simp [hg])) (acc ||| f) (Nat.or_lt_two_pow hacc hf)

theorem orAll_specFlag_lt (cs : List Call) : orAll (cs.map Call.specFlag) < 256 := by
  have h : orAll (cs.map Call.specFlag) < 2 ^ 5 := by
    unfold orAll
    apply foldl_or_lt
    · intro f hf
      obtain ⟨c, _, rfl⟩ := List.mem_map.mp hf
      exact specFlag_lt c
    · decide
  exact lt_trans h (by decide)

/-! ### Single-bit helpers -/

theorem validField_one {n : Nat} (hn : n ≤ 7) : ValidField n 1 :=
  ⟨hn, le_refl 1, by decide, by omega⟩

theorem writeBits_valid_snd {s l v : Nat} (h : ValidField s l) (hv : v ≤ 2 ^ l - 1)
    (b e : Nat) : (writeBits b s l v e).2 = e := by
  rw [writeBits_valid h hv]

theorem getBitN_valid {n : Nat} (hn : n ≤ 7) (b e : Nat) :
    getBitN b n e = (((b >>> n) &&& 1) % 256, e) := by
  unfold getBitN
  rw [if_neg (by omega)]

theorem setBitN_valid {n : Nat} (hn : n ≤ 7) (b e : Nat) :
    setBitN b n e = ((b ||| (1 <<< n)) % 256, e) := by
  unfold setBitN
  rw [if_neg (by omega)]

theorem resetBitN_valid {n : Nat} (hn : n ≤ 7) (b e : Nat) :
    resetBitN b n e = ((b &&& bitNot (1 <<< n)) % 256, e) := by
  unfold resetBitN
  rw [if_neg (by omega)]

theorem flipBitN_valid {n : Nat} (hn : n ≤ 7) (b e : Nat) :
    flipBitN b n e = ((b ^^^ (1 <<< n)) % 256, e) := by
  unfold flipBitN
  rw [if_neg (by omega)]

theorem two_pow_lt_of_le_seven {n : Nat} (hn : n ≤ 7) : 2 ^ n < 4294967296 := by
  interval_cases n <;> decide

/-- Bit `i` of the byte returned by `setBitN` for an index in range. -/
theorem setBitN_testBit {n : Nat} (hn : n ≤ 7) (b e i : Nat) :
    (setBitN b n e).1.testBit i = (decide (i < 8) && (b.testBit i || decide (n = i))) := by
  rw [setBitN_valid hn]
  simp only [testBit_mod256, Nat.testBit_or, Nat.one_shiftLeft, Nat.testBit_two_pow]

/-- Bit `i` of the byte returned by `resetBitN` for an index in range. -/
theorem resetBitN_testBit {n : Nat} (hn : n ≤ 7) (b e i : Nat) :
    (resetBitN b n e).1.testBit i = (decide (i < 8) && (b.testBit i && !decide (n = i))) := by
  rw [resetBitN_valid hn]
  simp only [testBit_mod256, Nat.testBit_and, Nat.one_shiftLeft,
    testBit_bitNot (two_pow_lt_of_le_seven hn), Nat.testBit_two_pow]
  by_cases h8i : i < 8
  · have h32 : i < 32 := by omega
    simp [h8i, h32]
  · simp [h8i]

/-- Bit `i` of the byte returned by `flipBitN` for an index in range. -/
theorem flipBitN_testBit {n : Nat} (hn : n ≤ 7) (b e i : Nat) :
    (flipBitN b n e).1.testBit i = (decide (i < 8) && (b.testBit i ^^ decide (n = i))) := by
  rw [flipBitN_valid hn]
  simp only [testBit_mod256, Nat.testBit_xor, Nat.one_shiftLeft, Nat.testBit_two_pow]

/-- Bit `i` of the byte returned by a successful one-bit `writeBits`. -/
theorem writeBits_one_testBit {n v : Nat} (hn : n ≤ 7) (hv : v ≤ 1) (b e i : Nat) :
    (writeBits b n 1 v e).1.testBit i =
      if n = i then decide (v = 1) else (decide (i < 8) && b.testBit i) := by
  rw [writeBits_testBit (validField_one hn) (by simpa using hv)]
  by_cases hni : n = i
  · subst hni
    have hc : n ≤ n ∧ n < n + 1 := ⟨le_refl n, by omega⟩
    rw [if_pos hc, if_pos rfl, Nat.sub_self]
    interval_cases v <;> decide
  · have hc : ¬ (n ≤ i ∧ i < n + 1) := by omega
    rw [if_neg hc, if_neg hni]

/-! ### Integer predicates -/

theorem testBit_of_two_pow_le {x k : Nat} (hlo : 2 ^ k ≤ x) (hhi : x < 2 ^ (k + 1)) :
    x.testBit k = true := by
  have hdiv : x / 2 ^ k = 1 := by
    apply Nat.div_eq_of_lt_le
    · simpa using hlo
    · rw [Nat.pow_succ] at hhi
      omega
  rw [Nat.testBit_to_div_mod, hdiv]
  rfl

/-- The test `n & (n-1) == 0` on a positive natural number singles out the powers of two. -/
theorem and_pred_eq_zero_iff {n : Nat} (hn : 0 < n) :
    n &&& (n - 1) = 0 ↔ ∃ k : Nat, n = 2 ^ k := by
  constructor
  · intro h
    refine ⟨Nat.log 2 n, ?_⟩
    have hlo : 2 ^ Nat.log 2 n ≤ n := Nat.pow_log_le_self 2 (by omega)
    have hhi : n < 2 ^ (Nat.log 2 n + 1) := Nat.lt_pow_succ_log_self (by decide) n
    by_contra hne
    have hlo1 : 2 ^ Nat.log 2 n ≤ n - 1 := by omega
    have hhi1 : n - 1 < 2 ^ (Nat.log 2 n + 1) := by omega
    have hbit : (n &&& (n - 1)).testBit (Nat.log 2 n) = true := by
      rw [Nat.testBit_and, testBit_of_two_pow_le hlo hhi, testBit_of_two_pow_le hlo1 hhi1]
      rfl
    rw [h, Nat.zero_testBit] at hbit
    exact Bool.false_ne_true hbit
  · rintro ⟨k, rfl⟩
    rw [Nat.and_pow_two_sub_one_eq_mod, Nat.mod_self]

theorem bits32_of_nonneg {x : Int} (h0 : 0 ≤ x) (h1 : x ≤ 2147483647) :
    bits32 x = x.toNat := by
  unfold bits32
  omega

theorem isPowerOf2_eq_one_iff {num : Int} (hhi : num ≤ 2147483647) :
    isPowerOf2 num = 1 ↔ 0 < num ∧ num.toNat &&& (num - 1).toNat = 0 := by
  unfold isPowerOf2
  by_cases hpos : num > 0
  · rw [if_pos hpos, bits32_of_nonneg (by omega) hhi, bits32_of_nonneg (by omega) (by omega)]
    by_cases hand : num.toNat &&& (num - 1).toNat = 0
    · rw [if_pos hand]
      exact ⟨fun _ => ⟨hpos, hand⟩, fun _ => rfl⟩
    · rw [if_neg hand]
      exact ⟨fun h => absurd h (by decide), fun h => absurd h.2 hand⟩
  · rw [if_neg hpos]
    exact ⟨fun h => absurd h (by decide), fun h => absurd h.1 hpos⟩

theorem isPowerOf2_eq_one_iff_pow {num : Int} (hhi : num ≤ 2147483647) :
    isPowerOf2 num = 1 ↔ ∃ k : Nat, k ≤ 30 ∧ num = 2 ^ k := by
  rw [isPowerOf2_eq_one_iff hhi]
  constructor
  · rintro ⟨hpos, hand⟩
    have hsub : (num - 1).toNat = num.toNat - 1 := by omega
    rw [hsub] at hand
    obtain ⟨k, hk⟩ := (and_pred_eq_zero_iff (by omega)).mp hand
    have hnum : num = 2 ^ k := by
      have hcast : num = ((num.toNat : Nat) : Int) := (Int.toNat_of_nonneg (by omega)).symm
      rw [hcast, hk]
      push_cast
      rfl
    refine ⟨k, ?_, hnum⟩
    by_contra hk30
    have hle : 2 ^ 31 ≤ 2 ^ k := Nat.pow_le_pow_right (by decide) (by omega)
    have hlt : num.toNat < 2 ^ 31 := by omega
    omega
  · rintro ⟨k, hk30, rfl⟩
    have hposN : 0 < 2 ^ k := by positivity
    have htoNat : ((2 : Int) ^ k).toNat = 2 ^ k := by
      have : ((2 : Int) ^ k) = ((2 ^ k : Nat) : Int) := by push_cast; rfl
      rw [this, Int.toNat_natCast]
    have hpos : (0 : Int) < 2 ^ k := by positivity
    refine ⟨hpos, ?_⟩
    have hsub : ((2 : Int) ^ k - 1).toNat = ((2 : Int) ^ k).toNat - 1 := by omega
    rw [hsub, htoNat]
    exact (and_pred_eq_zero_iff hposN).mpr ⟨k, rfl⟩

theorem isPowerOf2_zero_or_one (num : Int) : isPowerOf2 num = 0 ∨ isPowerOf2 num = 1 := by
  unfold isPowerOf2
  split_ifs
  · exact Or.inr rfl
  · exact Or.inl rfl
  · exact Or.inl rfl

theorem isOdd_eq_one_iff (num : Int) : isOdd num = 1 ↔ num % 2 = 1 := by
  unfold isOdd
  have h1 : bits32 1 = 1 := rfl
  rw [h1, Nat.and_one_is_mod]
  unfold bits32
  by_cases hodd : (num % 4294967296).toNat % 2 ≠ 0
  · rw [if_pos hodd]
    exact ⟨fun _ => by omega, fun _ => rfl⟩
  · rw [if_neg hodd]
    exact ⟨fun h => absurd h (by decide), fun h => by omega⟩

theorem isOdd_zero_or_one (num : Int) : isOdd num = 0 ∨ isOdd num = 1 := by
  unfold isOdd
  split_ifs
  · exact Or.inr rfl
  · exact Or.inl rfl

/-! ## The bit-field engine: value properties -/

/-- C1. Round trip: for a valid field descriptor and a value `v ≤ 2^length - 1`, reading the
field back with `getBits` from the byte produced by `writeBits` returns exactly `v`. -/
theorem getBits_writeBits_roundtrip (b s l v e : Nat)
    (hs : s ≤ 7) (h1 : 1 ≤ l) (h8 : l ≤ 8) (hsl : s + l ≤ 8) (hv : v ≤ 2 ^ l - 1) :
    (getBits (writeBits b s l v e).1 s l (writeBits b s l v e).2).1 = v := by
  have hval : ValidField s l := ⟨hs, h1, h8, hsl⟩
  have hpos : 0 < 2 ^ l := by positivity
  have hvlt : v < 2 ^ l := by omega
  apply Nat.eq_of_testBit_eq
  intro j
  rw [getBits_testBit hval, writeBits_testBit hval hv]
  by_cases hj : j < l
  · have hc : s ≤ s + j ∧ s + j < s + l := ⟨by omega, by omega⟩
    have hsub : s + j - s = j := by omega
    simp [hj, hc, hsub]
  · have hf : v.testBit j = false := testBit_of_lt_two_pow hvlt (by omega)
    simp [hj, hf]

theorem getBits_writeBits_roundtrip_witness :
    (1 ≤ 7 ∧ 1 ≤ 3 ∧ 3 ≤ 8 ∧ 1 + 3 ≤ 8 ∧ 6 ≤ 2 ^ 3 - 1) ∧
      (getBits (writeBits 85 1 3 6 0).1 1 3 (writeBits 85 1 3 6 0).2).1 = 6 :=
  ⟨by decide, getBits_writeBits_roundtrip 85 1 3 6 0 (by decide) (by decide) (by decide)
    (by decide) (by decide)⟩

/-- C2. Frame preservation: for a valid field descriptor and a value `v ≤ 2^length - 1`,
every bit position `i` in `0..7` outside `[start_bit, start_bit+length-1]` carries the same
bit in the byte returned by `writeBits` as in the input byte. -/
theorem writeBits_frame (b s l v e i : Nat)
    (hs : s ≤ 7) (h1 : 1 ≤ l) (h8 : l ≤ 8) (hsl : s + l ≤ 8) (hv : v ≤ 2 ^ l - 1)
    (hi : i ≤ 7) (hout : i < s ∨ s + l - 1 < i) :
    (writeBits b s l v e).1.testBit i = b.testBit i := by
  rw [writeBits_testBit ⟨hs, h1, h8, hsl⟩ hv]
  have hc : ¬ (s ≤ i ∧ i < s + l) := by omega
  have hi8 : i < 8 := by omega
  simp [hc, hi8]

theorem writeBits_frame_witness :
    (1 ≤ 7 ∧ 1 ≤ 3 ∧ 3 ≤ 8 ∧ 1 + 3 ≤ 8 ∧ 6 ≤ 2 ^ 3 - 1 ∧ 4 ≤ 7 ∧ (4 < 1 ∨ 1 + 3 - 1 < 4)) ∧
      (writeBits 85 1 3 6 0).1.testBit 4 = Nat.testBit 85 4 :=
  ⟨by decide, writeBits_frame 85 1 3 6 0 4 (by decide) (by decide) (by decide) (by decide)
    (by decide) (by decide) (by decide)⟩

/-- C3. Field replacement: for a valid field descriptor and a value `v ≤ 2^length - 1`, bit
`start_bit + j` of the byte returned by `writeBits` is bit `j` of `v` for every `j < length`;
the returned byte is `(b & ~(((1<<length)-1) << start_bit)) | (v << start_bit)` truncated to
8 bits; and `writeBits(0b01010101, 1, 3, 6) = 0b01011101`. -/
theorem writeBits_field_replacement (b s l v e : Nat)
    (hs : s ≤ 7) (h1 : 1 ≤ l) (h8 : l ≤ 8) (hsl : s + l ≤ 8) (hv : v ≤ 2 ^ l - 1) :
    (∀ j, j < l → (writeBits b s l v e).1.testBit (s + j) = v.testBit j) ∧
      (writeBits b s l v e).1
        = ((b &&& bitNot (((1 <<< l) - 1) <<< s)) ||| (v <<< s)) % 256 ∧
      (writeBits 0b01010101 1 3 6 e).1 = 0b01011101 := by
  have hval : ValidField s l := ⟨hs, h1, h8, hsl⟩
  have hpos : 0 < 2 ^ l := by positivity
  have hvlt : v < 2 ^ l := by omega
  refine ⟨?_, ?_, rfl⟩
  · intro j hj
    rw [writeBits_testBit hval hv]
    have hc : s ≤ s + j ∧ s + j < s + l := ⟨by omega, by omega⟩
    have hsub : s + j - s = j := by omega
    simp [hc, hsub]
  · have hmask : (2 ^ l - 1) <<< s < 4294967296 := by
      have := field_mask_lt hval
      rw [Nat.one_shiftLeft] at this
      exact lt_trans this (by decide)
    apply Nat.eq_of_testBit_eq
    intro i
    rw [writeBits_testBit hval hv]
    simp only [testBit_mod256, Nat.testBit_or, Nat.testBit_and, testBit_bitNot hmask,
      Nat.testBit_shiftLeft, Nat.one_shiftLeft, Nat.testBit_two_pow_sub_one]
    by_cases h8i : i < 8
    · have h32 : i < 32 := by omega
      by_cases hsi : s ≤ i
      · by_cases hil : i < s + l
        · have : i - s < l := by omega
          simp [h8i, h32, hsi, hil, this]
        · have hf : v.testBit (i - s) = false := testBit_of_lt_two_pow hvlt (by omega)
          have : ¬ i - s < l := by omega
          simp [h8i, h32, hsi, hil, this, hf]
      · have : ¬ (i ≥ s) := by omega
        simp [h8i, h32, hsi, this]
    · have hsi : s ≤ i := by omega
      have hil : ¬ i < s + l := by omega
      simp [h8i, hsi, hil]

theorem writeBits_field_replacement_witness :
    (1 ≤ 7 ∧ 1 ≤ 3 ∧ 3 ≤ 8 ∧ 1 + 3 ≤ 8 ∧ 6 ≤ 2 ^ 3 - 1) ∧
      (writeBits 85 1 3 6 0).1 = ((85 &&& bitNot (((1 <<< 3) - 1) <<< 1)) ||| (6 <<< 1)) % 256 :=
  ⟨by decide, (writeBits_field_replacement 85 1 3 6 0 (by decide) (by decide) (by decide)
    (by decide) (by decide)).2.1⟩

/-- C4. Extraction value: for a valid field descriptor, `getBits` returns
`floor(b / 2^start_bit) mod 2^length`, which is at most `2^length - 1`; and
`getBits(0b01010101, 1, 3) = 0b00000010`. -/
theorem getBits_value (b s l e : Nat)
    (hs : s ≤ 7) (h1 : 1 ≤ l) (h8 : l ≤ 8) (hsl : s + l ≤ 8) :
    (getBits b s l e).1 = (b / 2 ^ s) % 2 ^ l ∧
      (getBits b s l e).1 ≤ 2 ^ l - 1 ∧
      (getBits 0b01010101 1 3 e).1 = 0b00000010 := by
  have hval : ValidField s l := ⟨hs, h1, h8, hsl⟩
  have hpos : 0 < 2 ^ l := by positivity
  have hdvd : 2 ^ l ∣ 256 := by
    have : 2 ^ l ∣ 2 ^ 8 := Nat.pow_dvd_pow 2 h8
    simpa using this
  have hval_eq : (getBits b s l e).1 = (b / 2 ^ s) % 2 ^ l := by
    rw [getBits_valid hval]
    simp only [Nat.shiftRight_eq_div_pow]
    exact Nat.mod_mod_of_dvd _ hdvd
  refine ⟨hval_eq, ?_, rfl⟩
  rw [hval_eq]
  have := Nat.mod_lt (b / 2 ^ s) hpos
  omega

theorem getBits_value_witness :
    (1 ≤ 7 ∧ 1 ≤ 3 ∧ 3 ≤ 8 ∧ 1 + 3 ≤ 8) ∧
      (getBits 85 1 3 0).1 = (85 / 2 ^ 1) % 2 ^ 3 :=
  ⟨by decide, (getBits_value 85 1 3 0 (by decide) (by decide) (by decide) (by decide)).1⟩

/-! ## The bit-field engine: validation and the error state -/

/-- C5. Failure returns the input untouched: when a validation fails (`start_bit ≥ 8`, or
`length = 0`, or `length > 8`, or `start_bit + length > 8`), `getBits` returns the input
byte, and when one of these or additionally `v > 2^length - 1` holds, `writeBits` returns
the input byte. -/
theorem failure_returns_input (b s l v e : Nat) :
    ((8 ≤ s ∨ l = 0 ∨ 8 < l ∨ 8 < s + l) → (getBits b s l e).1 = b) ∧
      ((8 ≤ s ∨ l = 0 ∨ 8 < l ∨ 8 < s + l ∨ 2 ^ l - 1 < v) → (writeBits b s l v e).1 = b) := by
  constructor
  · intro h
    apply getBits_invalid_fst
    unfold ValidField
    omega
  · intro h
    apply writeBits_invalid_fst
    unfold ValidField
    omega

theorem failure_returns_input_witness :
    (getBits 85 6 3 0).1 = 85 ∧ (writeBits 85 5 2 5 0).1 = 85 :=
  ⟨(failure_returns_input 85 6 3 0 0).1 (by decide),
    (failure_returns_input 85 5 2 5 0).2 (by decide)⟩

/-- C6. Insert validation order, one flag per failing call: a failing `writeBits` leaves the
error state equal to `e ||| f`, where `f` is the single flag of the first failing check in
the order `start_bit ≥ 8` (Start_Bit_Illegal, 8), `length = 0` or `length > 8`
(Length_Illegal, 4), `start_bit + length > 8` (Total_Length_over_8, 16),
`v > 2^length - 1` (Bits_Setting_Overflow, 2); `writeBits(b, 6, 3, 0)` raises
Total_Length_over_8, `writeBits(b, 0, 9, v)` raises Length_Illegal and
`writeBits(b, 5, 2, 5)` raises Bits_Setting_Overflow. -/
theorem writeBits_validation_order (b s l v e : Nat) :
    (8 ≤ s → (writeBits b s l v e).2 = e ||| Byte_Algorithm_Error_Start_Bit_Illegal) ∧
      (s < 8 → (l = 0 ∨ 8 < l) →
        (writeBits b s l v e).2 = e ||| Byte_Algorithm_Error_Length_Illegal) ∧
      (s < 8 → 1 ≤ l → l ≤ 8 → 8 < s + l →
        (writeBits b s l v e).2 = e ||| Byte_Algorithm_Error_Total_Length_over_8) ∧
      (s < 8 → 1 ≤ l → l ≤ 8 → s + l ≤ 8 → 2 ^ l - 1 < v →
        (writeBits b s l v e).2 = e ||| Byte_Algorithm_Error_Bits_Setting_Overflow) ∧
      (writeBits b 6 3 0 e).2 = e ||| 16 ∧
      (writeBits b 0 9 v e).2 = e ||| 4 ∧
      (writeBits b 5 2 5 e).2 = e ||| 2 ∧
      (Byte_Algorithm_Error_Start_Bit_Illegal = 8 ∧ Byte_Algorithm_Error_Length_Illegal = 4 ∧
        Byte_Algorithm_Error_Total_Length_over_8 = 16 ∧
        Byte_Algorithm_Error_Bits_Setting_Overflow = 2) := by
  refine ⟨?_, ?_, ?_, ?_, rfl, rfl, rfl, rfl, rfl, rfl, rfl⟩
  · intro hs
    unfold writeBits
    rw [if_pos hs]
  · intro hs hl
    unfold writeBits
    rw [if_neg (by omega), if_pos (by omega)]
  · intro hs h1 h8 hsl
    unfold writeBits
    rw [if_neg (by omega), if_neg (by omega), if_pos hsl]
  · intro hs h1 h8 hsl hv
    unfold writeBits
    simp only [maxvalue_eq h1 h8]
    rw [if_neg (by omega), if_neg (by omega), if_neg (by omega), if_pos hv]

theorem writeBits_validation_order_witness :
    (writeBits 85 8 0 255 1).2 = 1 ||| Byte_Algorithm_Error_Start_Bit_Illegal ∧
      (writeBits 85 7 9 255 1).2 = 1 ||| Byte_Algorithm_Error_Length_Illegal ∧
      (writeBits 85 7 2 255 1).2 = 1 ||| Byte_Algorithm_Error_Total_Length_over_8 ∧
      (writeBits 85 5 2 5 1).2 = 1 ||| Byte_Algorithm_Error_Bits_Setting_Overflow :=
  ⟨(writeBits_validation_order 85 8 0 255 1).1 (by decide),
    (writeBits_validation_order 85 7 9 255 1).2.1 (by decide) (by decide),
    (writeBits_validation_order 85 7 2 255 1).2.2.1 (by decide) (by decide) (by decide)
      (by decide),
    (writeBits_validation_order 85 5 2 5 1).2.2.2.1 (by decide) (by decide) (by decide)
      (by decide) (by decide)⟩

/-- C7. Extract validation order, one flag per failing call: a failing `getBits` leaves the
error state equal to `e ||| f`, where `f` is the single flag of the first failing check in
the order `start_bit ≥ 8` (Start_Bit_Illegal, 8), `length = 0` or `length > 8`
(Length_Illegal, 4), `start_bit + length > 8` (Total_Length_over_8, 16); and for every
invalid descriptor `getBits` and `writeBits` raise the same flag. -/
theorem getBits_validation_order (b s l v e : Nat) :
    (8 ≤ s → (getBits b s l e).2 = e ||| Byte_Algorithm_Error_Start_Bit_Illegal) ∧
      (s < 8 → (l = 0 ∨ 8 < l) →
        (getBits b s l e).2 = e ||| Byte_Algorithm_Error_Length_Illegal) ∧
      (s < 8 → 1 ≤ l → l ≤ 8 → 8 < s + l →
        (getBits b s l e).2 = e ||| Byte_Algorithm_Error_Total_Length_over_8) ∧
      ((8 ≤ s ∨ l = 0 ∨ 8 < l ∨ 8 < s + l) →
        (getBits b s l e).2 = (writeBits b s l v e).2) ∧
      (Byte_Algorithm_Error_Start_Bit_Illegal = 8 ∧ Byte_Algorithm_Error_Length_Illegal = 4 ∧
        Byte_Algorithm_Error_Total_Length_over_8 = 16) := by
  refine ⟨?_, ?_, ?_, ?_, rfl, rfl, rfl⟩
  · intro hs
    unfold getBits
    rw [if_pos hs]
  · intro hs hl
    unfold getBits
    rw [if_neg (by omega), if_pos (by omega)]
  · intro hs h1 h8 hsl
    unfold getBits
    rw [if_neg (by omega), if_neg (by omega), if_pos hsl]
  · intro h
    have hne : specFieldFlag s l ≠ 0 := by
      rw [Ne, specFieldFlag_eq_zero_iff]
      unfold ValidField
      omega
    rw [getBits_snd, writeBits_snd, specFlag_writeBits, if_pos hne]

theorem getBits_validation_order_witness :
    (getBits 85 8 0 1).2 = 1 ||| Byte_Algorithm_Error_Start_Bit_Illegal ∧
      (getBits 85 7 9 1).2 = 1 ||| Byte_Algorithm_Error_Length_Illegal ∧
      (getBits 85 7 2 1).2 = 1 ||| Byte_Algorithm_Error_Total_Length_over_8 ∧
      (getBits 85 7 2 1).2 = (writeBits 85 7 2 255 1).2 :=
  ⟨(getBits_validation_order 85 8 0 0 1).1 (by decide),
    (getBits_validation_order 85 7 9 0 1).2.1 (by decide) (by decide),
    (getBits_validation_order 85 7 2 0 1).2.2.1 (by decide) (by decide) (by decide)
      (by decide),
    (getBits_validation_order 85 7 2 255 1).2.2.2.1 (by decide)⟩

/-- C8. No error-state side effect on success: for a valid field descriptor `getBits`
leaves the error state exactly as it was, and so does `writeBits` when additionally
`v ≤ 2^length - 1`; from the cleared state, each of the two raises a flag if and only if one
of its validations fails. -/
theorem success_keeps_error_state (b s l v e : Nat) :
    ((s ≤ 7 ∧ 1 ≤ l ∧ l ≤ 8 ∧ s + l ≤ 8) → (getBits b s l e).2 = e) ∧
      ((s ≤ 7 ∧ 1 ≤ l ∧ l ≤ 8 ∧ s + l ≤ 8) → v ≤ 2 ^ l - 1 → (writeBits b s l v e).2 = e) ∧
      ((getBits b s l 0).2 ≠ 0 ↔ (8 ≤ s ∨ l = 0 ∨ 8 < l ∨ 8 < s + l)) ∧
      ((writeBits b s l v 0).2 ≠ 0 ↔ (8 ≤ s ∨ l = 0 ∨ 8 < l ∨ 8 < s + l ∨ 2 ^ l - 1 < v)) := by
  have hiff := specFieldFlag_eq_zero_iff s l
  unfold ValidField at hiff
  refine ⟨?_, ?_, ?_, ?_⟩
  · intro h
    rw [getBits_snd, hiff.mpr h, Nat.or_zero]
  · intro h hv
    rw [writeBits_snd, specFlag_writeBits, hiff.mpr h]
    simp [hv]
  · rw [getBits_snd, Nat.zero_or, Ne, hiff]
    omega
  · rw [writeBits_snd, specFlag_writeBits, Nat.zero_or]
    by_cases hval : s ≤ 7 ∧ 1 ≤ l ∧ l ≤ 8 ∧ s + l ≤ 8
    · rw [hiff.mpr hval]
      by_cases hv : v ≤ 2 ^ l - 1
      · simp [hv]; omega
      · simp [hv]; omega
    · have hne : specFieldFlag s l ≠ 0 := fun h0 => hval (hiff.mp h0)
      rw [if_pos hne]
      constructor
      · intro _; omega
      · intro _; exact hne

theorem success_keeps_error_state_witness :
    (getBits 85 1 3 17).2 = 17 ∧ (writeBits 85 1 3 6 17).2 = 17 :=
  ⟨(success_keeps_error_state 85 1 3 6 17).1 (by decide),
    (success_keeps_error_state 85 1 3 6 17).2.1 (by decide) (by decide)⟩

/-- C9. Accumulate and clear: after `Byte_Algorithm_clear_Error`, for every finite sequence
of library calls without a further clear, `Byte_Algorithm_check_Error` returns exactly the
bitwise OR of the flags raised by the failing calls of the sequence (each call of the
sequence ORs its own flag, `0` when it does not fail, into the state; the result is `0`
when no call failed); `check_Error` does not change the state; no call other than clear
removes a flag; clear followed by `check_Error` returns `0` from any prior state; and two
successive failing calls of different error kinds yield the union of both flags. -/
theorem error_flag_accumulate_and_clear (cs : List Call) (e : Nat)
    (hno : Call.clear_Error ∉ cs) :
    (Byte_Algorithm_check_Error (run cs (Byte_Algorithm_clear_Error e))).1
        = orAll (cs.map Call.specFlag) ∧
      (∀ c ∈ cs, ∀ st, c.exec st = st ||| c.specFlag) ∧
      ((∀ c ∈ cs, c.specFlag = 0) →
        (Byte_Algorithm_check_Error (run cs (Byte_Algorithm_clear_Error e))).1 = 0) ∧
      (Byte_Algorithm_check_Error e).2 = e ∧
      (∀ c : Call, c ≠ Call.clear_Error → ∀ i, e.testBit i = true →
        (c.exec e).testBit i = true) ∧
      (Byte_Algorithm_check_Error (Byte_Algorithm_clear_Error e)).1 = 0 ∧
      (∀ c₁ c₂ : Call, c₁ ≠ Call.clear_Error → c₂ ≠ Call.clear_Error →
        c₁.specFlag ≠ 0 → c₂.specFlag ≠ 0 → c₁.specFlag ≠ c₂.specFlag →
        (Byte_Algorithm_check_Error (run [c₁, c₂] (Byte_Algorithm_clear_Error e))).1
          = c₁.specFlag ||| c₂.specFlag) := by
  have hmain : ∀ ds : List Call, Call.clear_Error ∉ ds →
      (Byte_Algorithm_check_Error (run ds (Byte_Algorithm_clear_Error e))).1
        = orAll (ds.map Call.specFlag) := by
    intro ds hds
    have hrun : run ds (Byte_Algorithm_clear_Error e) = orAll (ds.map Call.specFlag) :=
      run_eq_foldl_or ds hds 0
    show run ds (Byte_Algorithm_clear_Error e) % 256 = _
    rw [hrun]
    exact Nat.mod_eq_of_lt (orAll_specFlag_lt ds)
  have hmem : ∀ c ∈ cs, c ≠ Call.clear_Error := fun c hc h => hno (h ▸ hc)
  refine ⟨hmain cs hno, fun c hc st => exec_eq_or_specFlag (hmem c hc) st, ?_, rfl, ?_, rfl,
    ?_⟩
  · intro hzero
    rw [hmain cs hno]
    have hall : ∀ (fs : List Nat), (∀ f ∈ fs, f = 0) →
        fs.foldl (fun acc f => acc ||| f) 0 = 0 := by
      intro fs
      induction fs with
      | nil => intro _; rfl
      | cons f fs ih =>
          intro hfs
          have hf : f = 0 := hfs f (by simp)
          subst hf
          exact ih (fun g hg => hfs g (by simp [hg]))
    apply hall
    intro f hf
    obtain ⟨c, hc, rfl⟩ := List.mem_map.mp hf
    exact hzero c hc
  · intro c hc i hi
    rw [exec_eq_or_specFlag hc, Nat.testBit_or, hi]
    rfl
  · intro c₁ c₂ h₁ h₂ _ _ _
    have hds : Call.clear_Error ∉ [c₁, c₂] := by
      intro h
      rcases List.mem_cons.mp h with h | h
      · exact h₁ h.symm
      · rcases List.mem_cons.mp h with h | h
        · exact h₂ h.symm
        · cases h
    rw [hmain [c₁, c₂] hds]
    show (0 ||| c₁.specFlag) ||| c₂.specFlag = _
    rw [Nat.zero_or]

theorem error_flag_accumulate_and_clear_witness :
    Call.clear_Error ∉
        [Call.writeBits 85 6 3 0, Call.getBitN 85 9, Call.check_Error, Call.getBits 85 0 9,
          Call.setLSB 85, Call.writeBits 85 1 3 6] ∧
      (Byte_Algorithm_check_Error
        (run [Call.writeBits 85 6 3 0, Call.getBitN 85 9, Call.check_Error,
          Call.getBits 85 0 9, Call.setLSB 85, Call.writeBits 85 1 3 6]
          (Byte_Algorithm_clear_Error 2))).1
        = orAll [16, 1, 0, 4, 0, 0] :=
  ⟨by decide, (error_flag_accumulate_and_clear _ 2 (by decide)).1⟩

/-- C10. Idempotence of insert: for every byte, start bit, length and value (valid or not),
applying the same `writeBits` a second time to its own result returns the same byte. -/
theorem writeBits_idempotent (b s l v e : Nat) :
    (writeBits (writeBits b s l v e).1 s l v (writeBits b s l v e).2).1
      = (writeBits b s l v e).1 := by
  by_cases h : ValidField s l ∧ v ≤ 2 ^ l - 1
  · obtain ⟨hval, hv⟩ := h
    apply Nat.eq_of_testBit_eq
    intro i
    rw [writeBits_testBit hval hv, writeBits_testBit hval hv]
    by_cases hc : s ≤ i ∧ i < s + l
    · simp [hc]
    · simp [hc]
  · rw [writeBits_invalid_fst h, writeBits_invalid_fst h]

/-! ## Single-bit helpers -/

/-- C11. Set/reset are field-write special cases: for every byte `b` and index `i` in
`[0,7]`, `writeBits(setBitN(b, i), i, 1, 0) = resetBitN(b, i)` and
`writeBits(resetBitN(b, i), i, 1, 1) = setBitN(b, i)` (returned byte and error state). -/
theorem set_reset_are_field_writes (b i e : Nat) (hi : i ≤ 7) :
    writeBits (setBitN b i e).1 i 1 0 (setBitN b i e).2 = resetBitN b i e ∧
      writeBits (resetBitN b i e).1 i 1 1 (resetBitN b i e).2 = setBitN b i e := by
  have hval := validField_one hi
  constructor
  · apply Prod.ext
    · apply Nat.eq_of_testBit_eq
      intro k
      rw [writeBits_one_testBit hi (by decide), setBitN_testBit hi, resetBitN_testBit hi]
      by_cases hik : i = k
      · simp [hik]
      · simp [hik]
    · rw [writeBits_valid_snd hval (by decide), setBitN_valid hi, resetBitN_valid hi]
  · apply Prod.ext
    · apply Nat.eq_of_testBit_eq
      intro k
      rw [writeBits_one_testBit hi (by decide), setBitN_testBit hi, resetBitN_testBit hi]
      by_cases hik : i = k
      · have hk : k < 8 := by omega
        simp [hik, hk]
      · simp [hik]
    · rw [writeBits_valid_snd hval (by decide), setBitN_valid hi, resetBitN_valid hi]

theorem set_reset_are_field_writes_witness :
    3 ≤ 7 ∧ writeBits (setBitN 85 3 0).1 3 1 0 (setBitN 85 3 0).2 = resetBitN 85 3 0 ∧
      writeBits (resetBitN 85 3 0).1 3 1 1 (resetBitN 85 3 0).2 = setBitN 85 3 0 :=
  ⟨by decide, set_reset_are_field_writes 85 3 0 (by decide)⟩

/-- C14. Indexed single-bit validation: each of `getBitN`, `setBitN`, `resetBitN` and
`flipBitN` called with `n > 7` returns the byte unchanged and leaves the error state equal to
`e ||| N_over_7` (`N_over_7 = 1`); called with `n ≤ 7` each leaves the error state equal to
`e`. -/
theorem indexed_bit_validation (b n e : Nat) :
    (7 < n →
        getBitN b n e = (b, e ||| Byte_Algorithm_Error_N_over_7) ∧
        setBitN b n e = (b, e ||| Byte_Algorithm_Error_N_over_7) ∧
        resetBitN b n e = (b, e ||| Byte_Algorithm_Error_N_over_7) ∧
        flipBitN b n e = (b, e ||| Byte_Algorithm_Error_N_over_7)) ∧
      (n ≤ 7 →
        (getBitN b n e).2 = e ∧ (setBitN b n e).2 = e ∧
        (resetBitN b n e).2 = e ∧ (flipBitN b n e).2 = e) ∧
      Byte_Algorithm_Error_N_over_7 = 1 := by
  refine ⟨?_, ?_, rfl⟩
  · intro hn
    refine ⟨?_, ?_, ?_, ?_⟩
    · unfold getBitN; rw [if_pos hn]
    · unfold setBitN; rw [if_pos hn]
    · unfold resetBitN; rw [if_pos hn]
    · unfold flipBitN; rw [if_pos hn]
  · intro hn
    rw [getBitN_valid hn, setBitN_valid hn, resetBitN_valid hn, flipBitN_valid hn]
    exact ⟨rfl, rfl, rfl, rfl⟩

theorem indexed_bit_validation_witness :
    (getBitN 85 8 2 = (85, 2 ||| Byte_Algorithm_Error_N_over_7) ∧
        setBitN 85 8 2 = (85, 2 ||| Byte_Algorithm_Error_N_over_7) ∧
        resetBitN 85 8 2 = (85, 2 ||| Byte_Algorithm_Error_N_over_7) ∧
        flipBitN 85 8 2 = (85, 2 ||| Byte_Algorithm_Error_N_over_7)) ∧
      ((getBitN 85 7 2).2 = 2 ∧ (setBitN 85 7 2).2 = 2 ∧
        (resetBitN 85 7 2).2 = 2 ∧ (flipBitN 85 7 2).2 = 2) :=
  ⟨(indexed_bit_validation 85 8 2).1 (by decide),
    (indexed_bit_validation 85 7 2).2.1 (by decide)⟩

/-- C15. Single-bit helpers are the length-1 special cases of extract/insert: for every
byte `b` and `n` in `[0,7]`, `getBitN(b, n) = getBits(b, n, 1)`,
`setBitN(b, n) = writeBits(b, n, 1, 1)`, `resetBitN(b, n) = writeBits(b, n, 1, 0)` and
`flipBitN(b, n) = writeBits(b, n, 1, 1 - getBits(b, n, 1))`; the LSB helpers equal the
indexed helpers at index 0 and the MSB helpers equal them at index 7. -/
theorem single_bit_helpers_are_special_cases (b n e : Nat) (hn : n ≤ 7) :
    getBitN b n e = getBits b n 1 e ∧
      setBitN b n e = writeBits b n 1 1 e ∧
      resetBitN b n e = writeBits b n 1 0 e ∧
      flipBitN b n e = writeBits b n 1 (1 - (getBits b n 1 e).1) e ∧
      (getLSB b = (getBitN b 0 e).1 ∧ setLSB b = (setBitN b 0 e).1 ∧
        resetLSB b = (resetBitN b 0 e).1 ∧ flipLSB b = (flipBitN b 0 e).1) ∧
      (getMSB b = (getBitN b 7 e).1 ∧ setMSB b = (setBitN b 7 e).1 ∧
        resetMSB b = (resetBitN b 7 e).1 ∧ flipMSB b = (flipBitN b 7 e).1) := by
  have hval := validField_one hn
  have hget : (getBits b n 1 e).1 = (b >>> n) % 256 % 2 := by
    rw [getBits_valid hval]
    rfl
  have hget1 : (getBits b n 1 e).1 ≤ 1 := by
    rw [hget]; omega
  refine ⟨?_, ?_, ?_, ?_, ⟨rfl, rfl, rfl, rfl⟩, ⟨rfl, rfl, rfl, rfl⟩⟩
  · rw [getBitN_valid hn, getBits_valid hval, Nat.and_one_is_mod]
    apply Prod.ext
    · show (b >>> n) % 2 % 256 = (b >>> n) % 256 % 2 ^ 1
      omega
    · rfl
  · apply Prod.ext
    · apply Nat.eq_of_testBit_eq
      intro k
      rw [writeBits_one_testBit hn (by decide), setBitN_testBit hn]
      by_cases hnk : n = k
      · have hk : k < 8 := by omega
        simp [hnk, hk]
      · simp [hnk]
    · rw [writeBits_valid_snd hval (by decide), setBitN_valid hn]
  · apply Prod.ext
    · apply Nat.eq_of_testBit_eq
      intro k
      rw [writeBits_one_testBit hn (by decide), resetBitN_testBit hn]
      by_cases hnk : n = k
      · simp [hnk]
      · simp [hnk]
    · rw [writeBits_valid_snd hval (by decide), resetBitN_valid hn]
  · have hv1 : 1 - (getBits b n 1 e).1 ≤ 1 := by omega
    apply Prod.ext
    · apply Nat.eq_of_testBit_eq
      intro k
      rw [writeBits_one_testBit hn hv1, flipBitN_testBit hn]
      by_cases hnk : n = k
      · subst hnk
        have hk : n < 8 := by omega
        have hbit : b.testBit n = decide ((getBits b n 1 e).1 = 1) := by
          have h0 := getBits_testBit hval b e 0
          rw [Nat.testBit_zero] at h0
          simp only [Nat.add_zero, Nat.zero_lt_one, decide_True, Bool.true_and] at h0
          rw [← h0]
          have hmod : (getBits b n 1 e).1 % 2 = (getBits b n 1 e).1 := by omega
          rw [hmod]
        rw [if_pos rfl, hbit]
        have hcases : (getBits b n 1 e).1 = 0 ∨ (getBits b n 1 e).1 = 1 := by omega
        rcases hcases with h0 | h0 <;> simp [h0, hk]
      · simp [hnk]
    · rw [writeBits_valid_snd hval (by simp), flipBitN_valid hn]

theorem single_bit_helpers_are_special_cases_witness :
    3 ≤ 7 ∧ getBitN 85 3 0 = getBits 85 3 1 0 ∧ setBitN 85 3 0 = writeBits 85 3 1 1 0 :=
  ⟨by decide, (single_bit_helpers_are_special_cases 85 3 0 (by decide)).1,
    (single_bit_helpers_are_special_cases 85 3 0 (by decide)).2.1⟩

/-! ## Integer predicates -/

/-- C12. `isPowerOf2` decides powers of two over the whole signed 32-bit range: for every
`int32_t` value `num`, `isPowerOf2(num)` returns 1 if and only if `num = 2^k` for some `k` in
`0..30` (equivalently `num > 0` and `num & (num-1) = 0`) and returns 0 otherwise, in
particular for every `num ≤ 0` and for `INT32_MIN`; it leaves the error state as it is; and
`isPowerOf2(0) = 0`, `isPowerOf2(1) = 1`, `isPowerOf2(6) = 0`. -/
theorem isPowerOf2_decides_powers_of_two (num : Int) (e : Nat)
    (hnum : -2147483648 ≤ num ∧ num ≤ 2147483647) :
    (isPowerOf2 num = 1 ↔ ∃ k : Nat, k ≤ 30 ∧ num = 2 ^ k) ∧
      (isPowerOf2 num = 1 ↔ 0 < num ∧ num.toNat &&& (num - 1).toNat = 0) ∧
      (isPowerOf2 num = 0 ↔ ¬ ∃ k : Nat, k ≤ 30 ∧ num = 2 ^ k) ∧
      (num ≤ 0 → isPowerOf2 num = 0) ∧
      isPowerOf2 (-2147483648) = 0 ∧
      (Call.isPowerOf2 num).exec e = e ∧
      isPowerOf2 0 = 0 ∧ isPowerOf2 1 = 1 ∧ isPowerOf2 6 = 0 := by
  have hpow := isPowerOf2_eq_one_iff_pow hnum.2
  refine ⟨hpow, isPowerOf2_eq_one_iff hnum.2, ?_, ?_, by decide, rfl, by decide, by decide,
    by decide⟩
  · rw [← hpow]
    rcases isPowerOf2_zero_or_one num with h | h
    · rw [h]
      exact ⟨fun _ => by decide, fun _ => rfl⟩
    · rw [h]
      exact ⟨fun h0 => absurd h0 (by decide), fun h1 => absurd rfl h1⟩
  · intro hle
    unfold isPowerOf2
    rw [if_neg (by omega)]

theorem isPowerOf2_decides_powers_of_two_witness :
    ((-2147483648 : Int) ≤ 1024 ∧ (1024 : Int) ≤ 2147483647) ∧
      (isPowerOf2 1024 = 1 ↔ ∃ k : Nat, k ≤ 30 ∧ (1024 : Int) = 2 ^ k) :=
  ⟨by decide, (isPowerOf2_decides_powers_of_two 1024 0 (by decide)).1⟩

/-- C13. `isOdd` is correct for negative numbers too: for every integer `num` (in particular
every `int32_t` value, read in two's complement), `isOdd(num)` returns 1 if and only if `num`
is not divisible by 2, and 0 otherwise; `isOdd(-3) = 1`. -/
theorem isOdd_correct (num : Int) :
    (isOdd num = 1 ↔ ¬ (2 : Int) ∣ num) ∧
      (isOdd num = 0 ↔ (2 : Int) ∣ num) ∧
      isOdd (-3) = 1 := by
  have h1 := isOdd_eq_one_iff num
  refine ⟨?_, ?_, by decide⟩
  · rw [h1]
    omega
  · rcases isOdd_zero_or_one num with h | h
    · have hne : ¬ num % 2 = 1 := fun hm => by
        have := h1.mpr hm
        omega
      exact ⟨fun _ => by omega, fun _ => h⟩
    · have hm := h1.mp h
      rw [h]
      exact ⟨fun h0 => absurd h0 (by decide), fun hd => by omega⟩

/-! ## Writers of the error state -/

/-- C16, as stated, fails: `getBitN` called with the index 8 from the cleared error state
leaves the error state equal to `N_over_7 = 1`, not to the prior state `0`; the same holds
for `setBitN`, `resetBitN` and `flipBitN`. -/
theorem indexed_bit_ops_write_error_state :
    (getBitN 0 8 0).2 = 1 ∧ (getBitN 0 8 0).2 ≠ 0 ∧
      (setBitN 0 8 0).2 ≠ 0 ∧ (resetBitN 0 8 0).2 ≠ 0 ∧ (flipBitN 0 8 0).2 ≠ 0 ∧
      ¬ (∀ b n e : Nat, (Call.getBitN b n).exec e = e) := by
  refine ⟨by decide, by decide, by decide, by decide, by decide, ?_⟩
  intro h
  exact absurd (h 0 8 0) (by decide)

/-- C16, amended. Apart from `Byte_Algorithm_clear_Error`, the only operations that ever
change the error state are `getBits`, `writeBits` and the indexed single-bit operations
`getBitN`, `setBitN`, `resetBitN`, `flipBitN` called with `n > 7`; for every input and every
prior error state `e`, each of `getLSB`, `getMSB`, `setLSB`, `resetLSB`, `setMSB`,
`resetMSB`, `flipLSB`, `flipMSB`, `isPowerOf2`, `isOdd` and `Byte_Algorithm_check_Error`
leaves the error state equal to `e`, and so do the four indexed operations when `n ≤ 7`. -/
theorem error_state_writers (c : Call) (e : Nat) :
    (c.exec e ≠ e →
        c = Call.clear_Error ∨ (∃ b s l, c = Call.getBits b s l) ∨
        (∃ b s l v, c = Call.writeBits b s l v) ∨
        (∃ b n, 7 < n ∧ (c = Call.getBitN b n ∨ c = Call.setBitN b n ∨
          c = Call.resetBitN b n ∨ c = Call.flipBitN b n))) ∧
      (∀ b : Nat, (Call.getLSB b).exec e = e ∧ (Call.getMSB b).exec e = e ∧
        (Call.setLSB b).exec e = e ∧ (Call.resetLSB b).exec e = e ∧
        (Call.setMSB b).exec e = e ∧ (Call.resetMSB b).exec e = e ∧
        (Call.flipLSB b).exec e = e ∧ (Call.flipMSB b).exec e = e) ∧
      (∀ num : Int, (Call.isPowerOf2 num).exec e = e ∧ (Call.isOdd num).exec e = e) ∧
      Call.check_Error.exec e = e ∧
      (∀ b n : Nat, n ≤ 7 → (Call.getBitN b n).exec e = e ∧ (Call.setBitN b n).exec e = e ∧
        (Call.resetBitN b n).exec e = e ∧ (Call.flipBitN b n).exec e = e) := by
  refine ⟨?_, fun b => ⟨rfl, rfl, rfl, rfl, rfl, rfl, rfl, rfl⟩, fun num => ⟨rfl, rfl⟩, rfl,
    ?_⟩
  · intro hne
    cases c with
    | clear_Error => exact Or.inl rfl
    | getBits b s l => exact Or.inr (Or.inl ⟨b, s, l, rfl⟩)
    | writeBits b s l v => exact Or.inr (Or.inr (Or.inl ⟨b, s, l, v, rfl⟩))
    | getBitN b n =>
        refine Or.inr (Or.inr (Or.inr ⟨b, n, ?_, Or.inl rfl⟩))
        by_contra hn
        exact hne (by show (getBitN b n e).2 = e; rw [getBitN_valid (by omega)])
    | setBitN b n =>
        refine Or.inr (Or.inr (Or.inr ⟨b, n, ?_, Or.inr (Or.inl rfl)⟩))
        by_contra hn
        exact hne (by show (setBitN b n e).2 = e; rw [setBitN_valid (by omega)])
    | resetBitN b n =>
        refine Or.inr (Or.inr (Or.inr ⟨b, n, ?_, Or.inr (Or.inr (Or.inl rfl))⟩))
        by_contra hn
        exact hne (by show (resetBitN b n e).2 = e; rw [resetBitN_valid (by omega)])
    | flipBitN b n =>
        refine Or.inr (Or.inr (Or.inr ⟨b, n, ?_, Or.inr (Or.inr (Or.inr rfl))⟩))
        by_contra hn
        exact hne (by show (flipBitN b n e).2 = e; rw [flipBitN_valid (by omega)])
    | _ => exact absurd rfl hne
  · intro b n hn
    refine ⟨?_, ?_, ?_, ?_⟩
    · show (getBitN b n e).2 = e
      rw [getBitN_valid hn]
    · show (setBitN b n e).2 = e
      rw [setBitN_valid hn]
    · show (resetBitN b n e).2 = e
      rw [resetBitN_valid hn]
    · show (flipBitN b n e).2 = e
      rw [flipBitN_valid hn]

theorem error_state_writers_witness :
    (Call.getBitN 0 8).exec 0 ≠ 0 ∧
      ((Call.getBitN 0 8) = Call.clear_Error ∨ (∃ b s l, (Call.getBitN 0 8) = Call.getBits b s l) ∨
        (∃ b s l v, (Call.getBitN 0 8) = Call.writeBits b s l v) ∨
        (∃ b n, 7 < n ∧ ((Call.getBitN 0 8) = Call.getBitN b n ∨
          (Call.getBitN 0 8) = Call.setBitN b n ∨
          (Call.getBitN 0 8) = Call.resetBitN b n ∨ (Call.getBitN 0 8) = Call.flipBitN b n))) ∧
      (Call.getBitN 85 7).exec 3 = 3 :=
  ⟨by decide, (error_state_writers (Call.getBitN 0 8) 0).1 (by decide),
    ((error_state_writers (Call.getBitN 0 8) 3).2.2.2.2 85 7 (by decide)).1⟩

/-! ## The bit-field engine: derived laws -/

/-- C17. Write-back identity: for every byte `b` and every start bit and length, valid or
not, `writeBits(b, start_bit, length, getBits(b, start_bit, length))` returns `b`; and when
the descriptor is valid the composed call leaves the error state as it was. -/
theorem write_back_identity (b s l e : Nat) (hb : b < 256) :
    (writeBits b s l (getBits b s l e).1 (getBits b s l e).2).1 = b ∧
      ((s ≤ 7 ∧ 1 ≤ l ∧ l ≤ 8 ∧ s + l ≤ 8) →
        (writeBits b s l (getBits b s l e).1 (getBits b s l e).2).2 = e) := by
  have hrange : ValidField s l → (getBits b s l e).1 ≤ 2 ^ l - 1 := by
    intro hval
    rw [getBits_valid hval]
    have hpos : 0 < 2 ^ l := by positivity
    have := Nat.mod_lt ((b >>> s) % 256) hpos
    show (b >>> s) % 256 % 2 ^ l ≤ 2 ^ l - 1
    omega
  constructor
  · by_cases hval : ValidField s l
    · have hv := hrange hval
      apply Nat.eq_of_testBit_eq
      intro i
      rw [writeBits_testBit hval hv, getBits_testBit hval]
      by_cases hc : s ≤ i ∧ i < s + l
      · have h1 : i - s < l := by omega
        have h2 : s + (i - s) = i := by omega
        simp [hc, h1, h2]
      · rw [if_neg hc]
        by_cases h8 : i < 8
        · simp [h8]
        · have hf : b.testBit i = false :=
            testBit_of_lt_two_pow (show b < 2 ^ 8 from hb) (by omega)
          simp [hf]
    · exact writeBits_invalid_fst (fun h => hval h.1) _ _
  · intro hval
    rw [writeBits_valid_snd hval (hrange hval), getBits_valid hval]

theorem write_back_identity_witness :
    (85 < 256 ∧ (1 ≤ 7 ∧ 1 ≤ 3 ∧ 3 ≤ 8 ∧ 1 + 3 ≤ 8)) ∧
      (writeBits 85 1 3 (getBits 85 1 3 0).1 (getBits 85 1 3 0).2).1 = 85 ∧
      (writeBits 85 1 3 (getBits 85 1 3 0).1 (getBits 85 1 3 0).2).2 = 0 :=
  ⟨by decide, (write_back_identity 85 1 3 0 (by decide)).1,
    (write_back_identity 85 1 3 0 (by decide)).2 (by decide)⟩

/-- C18. Disjoint fields are independent: for two valid field descriptors whose bit ranges
do not overlap and values in range for each, the two writes commute, and a write to the
first field does not change what `getBits` reads from the second. -/
theorem disjoint_fields_independent (b s₁ l₁ v₁ s₂ l₂ v₂ e : Nat)
    (h₁ : s₁ ≤ 7 ∧ 1 ≤ l₁ ∧ l₁ ≤ 8 ∧ s₁ + l₁ ≤ 8)
    (h₂ : s₂ ≤ 7 ∧ 1 ≤ l₂ ∧ l₂ ≤ 8 ∧ s₂ + l₂ ≤ 8)
    (hdis : s₁ + l₁ ≤ s₂ ∨ s₂ + l₂ ≤ s₁)
    (hv₁ : v₁ ≤ 2 ^ l₁ - 1) (hv₂ : v₂ ≤ 2 ^ l₂ - 1) :
    (writeBits (writeBits b s₁ l₁ v₁ e).1 s₂ l₂ v₂ (writeBits b s₁ l₁ v₁ e).2).1
        = (writeBits (writeBits b s₂ l₂ v₂ e).1 s₁ l₁ v₁ (writeBits b s₂ l₂ v₂ e).2).1 ∧
      (getBits (writeBits b s₁ l₁ v₁ e).1 s₂ l₂ (writeBits b s₁ l₁ v₁ e).2).1
        = (getBits b s₂ l₂ e).1 := by
  have hval₁ : ValidField s₁ l₁ := h₁
  have hval₂ : ValidField s₂ l₂ := h₂
  obtain ⟨hs₁, hl₁, hl₁8, hsl₁⟩ := h₁
  obtain ⟨hs₂, hl₂, hl₂8, hsl₂⟩ := h₂
  constructor
  · apply Nat.eq_of_testBit_eq
    intro i
    rw [writeBits_testBit hval₂ hv₂, writeBits_testBit hval₁ hv₁, writeBits_testBit hval₁ hv₁,
      writeBits_testBit hval₂ hv₂]
    by_cases hc₁ : s₁ ≤ i ∧ i < s₁ + l₁
    · have hc₂ : ¬ (s₂ ≤ i ∧ i < s₂ + l₂) := by omega
      have h8 : i < 8 := by omega
      simp [hc₁, hc₂, h8]
    · by_cases hc₂ : s₂ ≤ i ∧ i < s₂ + l₂
      · have h8 : i < 8 := by omega
        simp [hc₁, hc₂, h8]
      · simp [hc₁, hc₂]
  · apply Nat.eq_of_testBit_eq
    intro j
    rw [getBits_testBit hval₂, getBits_testBit hval₂, writeBits_testBit hval₁ hv₁]
    by_cases hj : j < l₂
    · have hc₁ : ¬ (s₁ ≤ s₂ + j ∧ s₂ + j < s₁ + l₁) := by omega
      have h8 : s₂ + j < 8 := by omega
      simp [hj, hc₁, h8]
    · simp [hj]

theorem disjoint_fields_independent_witness :
    ((1 ≤ 7 ∧ 1 ≤ 3 ∧ 3 ≤ 8 ∧ 1 + 3 ≤ 8) ∧ (4 ≤ 7 ∧ 1 ≤ 4 ∧ 4 ≤ 8 ∧ 4 + 4 ≤ 8) ∧
        (1 + 3 ≤ 4 ∨ 4 + 4 ≤ 1) ∧ 6 ≤ 2 ^ 3 - 1 ∧ 9 ≤ 2 ^ 4 - 1) ∧
      (writeBits (writeBits 85 1 3 6 0).1 4 4 9 (writeBits 85 1 3 6 0).2).1
        = (writeBits (writeBits 85 4 4 9 0).1 1 3 6 (writeBits 85 4 4 9 0).2).1 ∧
      (getBits (writeBits 85 1 3 6 0).1 4 4 (writeBits 85 1 3 6 0).2).1
        = (getBits 85 4 4 0).1 :=
  ⟨by decide, disjoint_fields_independent 85 1 3 6 4 4 9 0 (by decide) (by decide)
    (by decide) (by decide) (by decide)⟩

/-- C19. Last write wins: for a valid field descriptor, any first value `v₁` (in range or
not) and a second value `v₂ ≤ 2^length - 1`, writing `v₁` and then `v₂` into the same field
returns the same byte as writing `v₂` alone. -/
theorem last_write_wins (b s l v₁ v₂ e : Nat)
    (h : s ≤ 7 ∧ 1 ≤ l ∧ l ≤ 8 ∧ s + l ≤ 8) (hv₂ : v₂ ≤ 2 ^ l - 1) :
    (writeBits (writeBits b s l v₁ e).1 s l v₂ (writeBits b s l v₁ e).2).1
      = (writeBits b s l v₂ e).1 := by
  have hval : ValidField s l := h
  by_cases hv₁ : v₁ ≤ 2 ^ l - 1
  · apply Nat.eq_of_testBit_eq
    intro i
    rw [writeBits_testBit hval hv₂, writeBits_testBit hval hv₁, writeBits_testBit hval hv₂]
    by_cases hc : s ≤ i ∧ i < s + l
    · simp [hc]
    · simp [hc]
  · rw [writeBits_invalid_fst (fun hh => hv₁ hh.2)]
    apply Nat.eq_of_testBit_eq
    intro i
    rw [writeBits_testBit hval hv₂, writeBits_testBit hval hv₂]

theorem last_write_wins_witness :
    ((1 ≤ 7 ∧ 1 ≤ 3 ∧ 3 ≤ 8 ∧ 1 + 3 ≤ 8) ∧ 6 ≤ 2 ^ 3 - 1) ∧
      (writeBits (writeBits 85 1 3 200 0).1 1 3 6 (writeBits 85 1 3 200 0).2).1
        = (writeBits 85 1 3 6 0).1 ∧
      (writeBits (writeBits 85 1 3 2 0).1 1 3 6 (writeBits 85 1 3 2 0).2).1
        = (writeBits 85 1 3 6 0).1 :=
  ⟨by decide, last_write_wins 85 1 3 200 6 0 (by decide) (by decide),
    last_write_wins 85 1 3 2 6 0 (by decide) (by decide)⟩

end ByteAlgorithm
